import Mathlib

/-!
Shallow embedding of `gama/utilities/auto_ensemble.py`: the `Ensemble`
class (weighted model set, greedy forward selection, bagging merge,
prediction blending), the `load_predictions` cache loader and the
`__getstate__` persistence shim.

Conventions of the embedding:
* a pipeline handle is an opaque value with decidable equality, embedded
  as `ℕ`;
* a prediction matrix (a `numpy` array; every operation applied to it in
  this module is elementwise) is embedded as `Fin k → ℚ` for a fixed
  flattened shape `k`; `numpy` scalar arithmetic is exact rational
  arithmetic here;
* the Python dict `self._models : pipeline -> (model, weight)` is an
  association list in insertion order (`dict` preserves insertion order;
  `pop` + reinsertion moves the entry to the end, which the embedding
  mirrors);
* operations that raise in Python (`np.stack([])`, indexing an empty
  list, an unbound local) return `none`;
* the metric collaborator `evaluate(metric, y_true, pred)` is out of
  scope per the spec and is passed in as an arbitrary scoring function
  `ev : (Fin k → ℚ) → ℚ` (metric and ground truth fixed).
-/

namespace Gama

/-- `Model = namedtuple("Model", ['name', 'pipeline', 'predictions', 'validation_score'])`. -/
structure Model (k : ℕ) where
  name : String
  pipeline : ℕ
  predictions : Fin k → ℚ
  validation_score : ℚ
deriving DecidableEq

/-- The `self._models` dict: insertion-ordered `pipeline -> (model, weight)` map,
with the key stored implicitly as `model.pipeline`. -/
abbrev MMap (k : ℕ) := List (Model k × ℕ)

/-- The keys of the `self._models` dict, in insertion order. -/
def keys {k : ℕ} (ms : MMap k) : List ℕ := ms.map (fun e => e.1.pipeline)

/-- `Ensemble._add_model`: pop the entry stored under `model.pipeline`
(defaulting to `(model, 0)`) and re-insert the stored model with the weight
increased by `add_weight`; a re-inserted key moves to the end of the dict. -/
def add_model {k : ℕ} (ms : MMap k) (m : Model k) (w : ℕ) : MMap k :=
  match ms.find? (fun e => e.1.pipeline == m.pipeline) with
  | some (m0, w0) => (ms.filter (fun e => e.1.pipeline != m.pipeline)) ++ [(m0, w0 + w)]
  | none => ms ++ [(m, w)]

/-- `Ensemble._total_model_weights`. -/
def total_model_weights {k : ℕ} (ms : MMap k) : ℕ :=
  (ms.map (fun e => e.2)).sum

/-- The weighted sum of validation predictions at output coordinate `i`
(the `np.sum(np.stack([...]), axis=0)` numerator of
`_averaged_validation_predictions`, elementwise). -/
def wsum {k : ℕ} (ms : MMap k) (i : Fin k) : ℚ :=
  (ms.map (fun e => e.1.predictions i * (e.2 : ℚ))).sum

/-- `Ensemble._averaged_validation_predictions`: weighted average of the
member predictions; `np.stack` of an empty list raises, hence `none` on an
empty model set. -/
def averaged_validation_predictions {k : ℕ} (ms : MMap k) : Option (Fin k → ℚ) :=
  if ms.isEmpty then none
  else some (fun i => wsum ms i / (total_model_weights ms : ℚ))

/-- Weight stored under key `p` (`0` when absent). -/
def getWeight {k : ℕ} (ms : MMap k) (p : ℕ) : ℕ :=
  ((ms.find? (fun e => e.1.pipeline == p)).map (fun e => e.2)).getD 0

section MapLemmas

variable {k : ℕ}

theorem keys_nil : keys ([] : MMap k) = [] := rfl

theorem keys_cons (e : Model k × ℕ) (t : MMap k) :
    keys (e :: t) = e.1.pipeline :: keys t := rfl

theorem keys_append (s t : MMap k) : keys (s ++ t) = keys s ++ keys t :=
  List.map_append _ s t

theorem mem_keys {ms : MMap k} {q : ℕ} :
    q ∈ keys ms ↔ ∃ e ∈ ms, e.1.pipeline = q := by
  unfold keys
  constructor
  · intro h
    rcases List.mem_map.mp h with ⟨e, he, hq⟩
    exact ⟨e, he, hq⟩
  · rintro ⟨e, he, hq⟩
    exact List.mem_map.mpr ⟨e, he, hq⟩

theorem getWeight_nil (q : ℕ) : getWeight ([] : MMap k) q = 0 := rfl

theorem getWeight_cons (e : Model k × ℕ) (t : MMap k) (q : ℕ) :
    getWeight (e :: t) q = if e.1.pipeline = q then e.2 else getWeight t q := by
  unfold getWeight
  rw [List.find?_cons]
  by_cases h : e.1.pipeline = q
  · simp [h]
  · have hbe : (e.1.pipeline == q) = false := by simp [h]
    simp [h, hbe]

theorem getWeight_eq_zero_of_not_mem {ms : MMap k} {q : ℕ} (h : q ∉ keys ms) :
    getWeight ms q = 0 := by
  unfold getWeight
  have : ms.find? (fun e => e.1.pipeline == q) = none := by
    rw [List.find?_eq_none]
    intro x hx
    simp only [beq_iff_eq]
    intro hc
    exact h (mem_keys.mpr ⟨x, hx, hc⟩)
  simp [this]

theorem getWeight_append_singleton (t : MMap k) (a : Model k) (w q : ℕ) :
    getWeight (t ++ [(a, w)]) q =
      if q ∈ keys t then getWeight t q else if a.pipeline = q then w else 0 := by
  induction t with
  | nil =>
    simp only [List.nil_append, keys_nil, List.not_mem_nil, if_false]
    rw [getWeight_cons, getWeight_nil]
  | cons e t ih =>
    rw [List.cons_append, getWeight_cons, getWeight_cons, keys_cons]
    by_cases h : e.1.pipeline = q
    · simp [h]
    · have hq : q ∈ e.1.pipeline :: keys t ↔ q ∈ keys t := by
        constructor
        · intro hmem
          rcases List.mem_cons.mp hmem with h1 | h2
          · exact absurd h1.symm h
          · exact h2
        · exact fun h2 => List.mem_cons_of_mem _ h2
      rw [ih]
      by_cases hm : q ∈ keys t
      · simp [h, hq.mpr hm, hm]
      · have : q ∉ e.1.pipeline :: keys t := fun hc => hm (hq.mp hc)
        simp [h, this, hm]

theorem add_model_cons_ne (e : Model k × ℕ) (t : MMap k) (m : Model k) (w : ℕ)
    (h : e.1.pipeline ≠ m.pipeline) :
    add_model (e :: t) m w = e :: add_model t m w := by
  unfold add_model
  have hbe : (e.1.pipeline == m.pipeline) = false := by
    simp [h]
  have hne : (e.1.pipeline != m.pipeline) = true := by
    simp [bne, hbe]
  simp only [List.find?_cons, hbe]
  cases hf : t.find? (fun x => x.1.pipeline == m.pipeline) with
  | none => simp [List.filter_cons, hne]
  | some e0 =>
    cases e0 with
    | mk m0 w0 => simp [List.filter_cons, hne]

theorem add_model_cons_eq (e : Model k × ℕ) (t : MMap k) (m : Model k) (w : ℕ)
    (hk : e.1.pipeline = m.pipeline)
    (ht : m.pipeline ∉ keys t) :
    add_model (e :: t) m w = t ++ [(e.1, e.2 + w)] := by
  unfold add_model
  have hbe : (e.1.pipeline == m.pipeline) = true := by
    simp [hk]
  have hne : (e.1.pipeline != m.pipeline) = false := by
    simp [bne, hbe]
  have hfilter : t.filter (fun x => x.1.pipeline != m.pipeline) = t := by
    rw [List.filter_eq_self]
    intro a ha
    have : a.1.pipeline ≠ m.pipeline := by
      intro hc
      exact ht (mem_keys.mpr ⟨a, ha, hc⟩)
    simp [bne, this]
  simp [List.find?_cons, hbe, List.filter_cons, hne, hfilter]

theorem add_model_nil (m : Model k) (w : ℕ) :
    add_model ([] : MMap k) m w = [(m, w)] := by
  simp [add_model]

theorem add_model_ne_nil (ms : MMap k) (m : Model k) (w : ℕ) :
    add_model ms m w ≠ [] := by
  unfold add_model
  cases hf : ms.find? (fun e => e.1.pipeline == m.pipeline) with
  | none => simp
  | some e0 =>
    cases e0 with
    | mk m0 w0 => simp

/-- Membership in the keys after `_add_model`: every key comes from `ms` or is
the added model's pipeline (stated under the dict key invariant). -/
theorem keys_add_model_subset (ms : MMap k) (m : Model k) (w : ℕ)
    (h : (keys ms).Nodup) :
    ∀ q ∈ keys (add_model ms m w), q ∈ keys ms ∨ q = m.pipeline := by
  induction ms with
  | nil =>
    intro q hq
    rw [add_model_nil] at hq
    right
    rw [keys_cons] at hq
    rcases List.mem_cons.mp hq with h1 | h2
    · exact h1
    · exact absurd h2 (List.not_mem_nil q)
  | cons e t ih =>
    rw [keys_cons] at h
    have hkt : (keys t).Nodup := h.of_cons
    have hhead : e.1.pipeline ∉ keys t := (List.nodup_cons.mp h).1
    intro q hq
    by_cases hk : e.1.pipeline = m.pipeline
    · have htk : m.pipeline ∉ keys t := hk ▸ hhead
      rw [add_model_cons_eq e t m w hk htk, keys_append, keys_cons, keys_nil] at hq
      rcases List.mem_append.mp hq with h1 | h2
      · left
        rw [keys_cons]
        exact List.mem_cons_of_mem _ h1
      · right
        rcases List.mem_cons.mp h2 with h3 | h4
        · exact h3.trans hk
        · exact absurd h4 (List.not_mem_nil q)
    · rw [add_model_cons_ne e t m w hk, keys_cons] at hq
      rcases List.mem_cons.mp hq with h1 | h2
      · left
        rw [keys_cons, h1]
        exact List.mem_cons_self _ _
      · rcases ih hkt q h2 with h3 | h4
        · left
          rw [keys_cons]
          exact List.mem_cons_of_mem _ h3
        · exact Or.inr h4

/-- `_add_model` keeps the dict keys duplicate-free. -/
theorem nodup_keys_add_model (ms : MMap k) (m : Model k) (w : ℕ)
    (h : (keys ms).Nodup) : (keys (add_model ms m w)).Nodup := by
  induction ms with
  | nil =>
    rw [add_model_nil]
    simp [keys]
  | cons e t ih =>
    rw [keys_cons] at h
    have hkt : (keys t).Nodup := h.of_cons
    have hhead : e.1.pipeline ∉ keys t := (List.nodup_cons.mp h).1
    by_cases hk : e.1.pipeline = m.pipeline
    · have htk : m.pipeline ∉ keys t := hk ▸ hhead
      rw [add_model_cons_eq e t m w hk htk, keys_append, keys_cons, keys_nil]
      refine hkt.append (by simp) ?_
      intro a ha hb
      have hb1 : a = e.1.pipeline := by simpa using hb
      exact hhead (hb1 ▸ ha)
    · rw [add_model_cons_ne e t m w hk, keys_cons]
      rw [List.nodup_cons]
      constructor
      · intro hmem
        rcases keys_add_model_subset t m w hkt _ hmem with h1 | h2
        · exact hhead h1
        · exact hk h2
      · exact ih hkt

/-- Weight positivity is preserved by `_add_model` when the added weight is
positive. -/
theorem weights_add_model_pos (ms : MMap k) (m : Model k) (w : ℕ)
    (hms : ∀ e ∈ ms, 1 ≤ e.2) (hw : 1 ≤ w) :
    ∀ e ∈ add_model ms m w, 1 ≤ e.2 := by
  unfold add_model
  cases hf : ms.find? (fun e => e.1.pipeline == m.pipeline) with
  | none =>
    intro e he
    rcases List.mem_append.mp he with h1 | h2
    · exact hms e h1
    · have : e = (m, w) := by simpa using h2
      simpa [this] using hw
  | some e0 =>
    cases e0 with
    | mk m0 w0 =>
      intro e he
      rcases List.mem_append.mp he with h1 | h2
      · exact hms e (List.mem_of_mem_filter h1)
      · have : e = (m0, w0 + w) := by simpa using h2
        subst this
        simp only
        omega

/-- Adding with weight `w` increases the total weight by exactly `w`
(requires duplicate-free keys, the dict invariant). -/
theorem total_add_model (ms : MMap k) (m : Model k) (w : ℕ)
    (h : (keys ms).Nodup) :
    total_model_weights (add_model ms m w) = total_model_weights ms + w := by
  induction ms with
  | nil => simp [add_model_nil, total_model_weights]
  | cons e t ih =>
    rw [keys_cons] at h
    have hkt : (keys t).Nodup := h.of_cons
    have hhead : e.1.pipeline ∉ keys t := (List.nodup_cons.mp h).1
    by_cases hk : e.1.pipeline = m.pipeline
    · have htk : m.pipeline ∉ keys t := hk ▸ hhead
      rw [add_model_cons_eq e t m w hk htk]
      simp only [total_model_weights, List.map_append, List.sum_append,
        List.map_cons, List.sum_cons, List.map_nil, List.sum_nil]
      omega
    · rw [add_model_cons_ne e t m w hk]
      simp only [total_model_weights, List.map_cons, List.sum_cons] at *
      rw [ih hkt]
      omega

/-- Adding with weight `w` adds `w * predictions` to the elementwise
weighted numerator, provided any stored record under the same pipeline has
the same predictions (records are identified by pipeline). -/
theorem wsum_add_model (ms : MMap k) (m : Model k) (w : ℕ) (i : Fin k)
    (h : (keys ms).Nodup)
    (hid : ∀ e ∈ ms, e.1.pipeline = m.pipeline → e.1.predictions = m.predictions) :
    wsum (add_model ms m w) i = wsum ms i + m.predictions i * (w : ℚ) := by
  induction ms with
  | nil => simp [add_model_nil, wsum]
  | cons e t ih =>
    rw [keys_cons] at h
    have hkt : (keys t).Nodup := h.of_cons
    have hhead : e.1.pipeline ∉ keys t := (List.nodup_cons.mp h).1
    by_cases hk : e.1.pipeline = m.pipeline
    · have htk : m.pipeline ∉ keys t := hk ▸ hhead
      rw [add_model_cons_eq e t m w hk htk]
      have hpred : e.1.predictions = m.predictions :=
        hid e (List.mem_cons_self e t) hk
      simp only [wsum, List.map_append, List.sum_append, List.map_cons,
        List.sum_cons, List.map_nil, List.sum_nil, hpred]
      push_cast
      ring
    · rw [add_model_cons_ne e t m w hk]
      simp only [wsum, List.map_cons, List.sum_cons] at *
      rw [ih hkt (fun a ha hap => hid a (List.mem_cons_of_mem e ha) hap)]
      ring

/-- Effect of `_add_model` on the weight stored under any key: the added
model's key gains `w`, every other key is untouched. -/
theorem getWeight_add_model (ms : MMap k) (m : Model k) (w : ℕ) (q : ℕ)
    (h : (keys ms).Nodup) :
    getWeight (add_model ms m w) q =
      if q = m.pipeline then getWeight ms q + w else getWeight ms q := by
  induction ms with
  | nil =>
    rw [add_model_nil, getWeight_cons, getWeight_nil]
    by_cases hq : q = m.pipeline
    · simp [hq]
    · have hne : m.pipeline ≠ q := fun hc => hq hc.symm
      simp [hq, hne]
  | cons e t ih =>
    rw [keys_cons] at h
    have hkt : (keys t).Nodup := h.of_cons
    have hhead : e.1.pipeline ∉ keys t := (List.nodup_cons.mp h).1
    by_cases hk : e.1.pipeline = m.pipeline
    · have htk : m.pipeline ∉ keys t := hk ▸ hhead
      rw [add_model_cons_eq e t m w hk htk, getWeight_append_singleton,
        getWeight_cons]
      by_cases hq : q = m.pipeline
      · subst hq
        simp [htk, hk]
      · have heq : e.1.pipeline ≠ q := fun hc => hq (hc.symm.trans hk)
        by_cases hm : q ∈ keys t
        · simp [hm, heq, hq]
        · simp [hm, heq, hq, getWeight_eq_zero_of_not_mem hm]
    · rw [add_model_cons_ne e t m w hk, getWeight_cons, getWeight_cons, ih hkt]
      by_cases he : e.1.pipeline = q
      · have hq : q ≠ m.pipeline := fun hc => hk (he.trans hc)
        simp [he, hq]
      · simp [he]

end MapLemmas

/-! ### Greedy forward selection (`add_models`, `build_initial_ensemble`) -/

/-- The candidate aggregate prediction of `add_models` (online update):
`current_weighted_average + (model.predictions - current_weighted_average) /
(current_total_weight + 1)`, elementwise. -/
def candidate_pred {k : ℕ} (avg : Fin k → ℚ) (w : ℕ) (m : Model k) : Fin k → ℚ :=
  fun i => avg i + (m.predictions i - avg i) / ((w : ℚ) + 1)

/-- One candidate examination of the inner loop of `add_models`: skip models
with `validation_score == 0`, otherwise replace the incumbent best exactly on
strict improvement in the metric direction.  A `none` accumulator embeds the
initial state where `best_addition` is unbound and `best_addition_score` is
`-inf` (for a maximized metric) or `+inf` (minimized); the first examined
candidate always replaces it, as every rational score beats the infinity. -/
def best_step {k : ℕ} (maximize : Bool) (ev : (Fin k → ℚ) → ℚ) (avg : Fin k → ℚ)
    (w : ℕ) (acc : Option (Model k × ℚ)) (m : Model k) : Option (Model k × ℚ) :=
  if m.validation_score = 0 then acc
  else
    let cscore := ev (candidate_pred avg w m)
    match acc with
    | none => some (m, cscore)
    | some (bm, bs) =>
      if (maximize && decide (bs < cscore)) || (!maximize && decide (bs > cscore))
      then some (m, cscore)
      else some (bm, bs)

/-- The inner `for model in self.model_library` loop of `add_models`: the
retained `(best_addition, best_addition_score)` after examining the whole
library, `none` when no candidate was ever retained (unbound local). -/
def best_addition {k : ℕ} (maximize : Bool) (ev : (Fin k → ℚ) → ℚ) (avg : Fin k → ℚ)
    (w : ℕ) (lib : List (Model k)) : Option (Model k × ℚ) :=
  lib.foldl (best_step maximize ev avg w) none

/-- One iteration of the `for _ in range(n)` loop of `add_models`:
recompute the current weighted average and total weight, pick the best
addition over the library, add it at weight 1.  `none` embeds the raised
exceptions (`np.stack` of an empty model set, or `best_addition` unbound). -/
def step_add {k : ℕ} (maximize : Bool) (ev : (Fin k → ℚ) → ℚ) (lib : List (Model k))
    (ms : MMap k) : Option (MMap k) :=
  match averaged_validation_predictions ms with
  | none => none
  | some avg =>
    match best_addition maximize ev avg (total_model_weights ms) lib with
    | none => none
    | some (m, _) => some (add_model ms m 1)

/-- The `for _ in range(n)` loop of `add_models`. -/
def add_models_go {k : ℕ} (maximize : Bool) (ev : (Fin k → ℚ) → ℚ)
    (lib : List (Model k)) : ℕ → MMap k → Option (MMap k)
  | 0, ms => some ms
  | n + 1, ms =>
    match step_add maximize ev lib ms with
    | none => none
    | some ms2 => add_models_go maximize ev lib n ms2

/-- `Ensemble.add_models`: `ValueError` (`none`) unless `n > 0`, then `n`
greedy addition steps. -/
def add_models {k : ℕ} (maximize : Bool) (ev : (Fin k → ℚ) → ℚ) (lib : List (Model k))
    (n : ℕ) (ms : MMap k) : Option (MMap k) :=
  if n = 0 then none
  else add_models_go maximize ev lib n ms

/-- `Ensemble.build_initial_ensemble`: `ValueError` (`none`) unless `n > 0`;
reset a non-empty model set (with a logged warning); sort the library
ascending by individually evaluated metric score (Python `sorted`, a stable
sort), reverse when the metric is maximized; add the first `n` models, each
at weight 1. -/
def build_initial_ensemble {k : ℕ} (maximize : Bool) (ev : (Fin k → ℚ) → ℚ)
    (lib : List (Model k)) (n : ℕ) (ms : MMap k) : Option (MMap k) :=
  if n = 0 then none
  else
    let ms0 : MMap k := if ms.isEmpty then ms else []
    let sorted_ensembles := lib.mergeSort (fun a b => decide (ev a.predictions ≤ ev b.predictions))
    let ordered := if maximize then sorted_ensembles.reverse else sorted_ensembles
    let selected_models := ordered.take n
    some (selected_models.foldl (fun acc m => add_model acc m 1) ms0)

/-! ### Bagging merge (`build_`) -/

/-- The merge phase of `Ensemble.build_`: `self._models = {}`, then for every
child ensemble and every `(model, weight)` in its `_models.values()`,
`self._add_model(model, add_weight=weight)`.  The construction of the
children themselves (random sub-library draw + seed + stepwise adds) happens
before this phase and is represented by the `children` argument; the
`parent` argument is the parent's prior `_models`, which the assignment
`self._models = {}` discards. -/
def merge_child_ensembles {k : ℕ} (children : List (MMap k)) (_parent : MMap k) : MMap k :=
  children.foldl (fun acc c => c.foldl (fun a e => add_model a e.1 e.2) acc) []

/-- A sequence of `_add_model` calls applied to an initially empty model set:
`seed(n)` resets the set and performs `n` unit-weight calls, each `step_add`
iteration performs one unit-weight call, and the bagging merge performs one
call per child entry at that entry's weight. -/
def apply_adds {k : ℕ} (ops : List (Model k × ℕ)) : MMap k :=
  ops.foldl (fun acc o => add_model acc o.1 o.2) []

/-! ### Prediction blending (`predict_proba`) -/

/-- An entry of the Fitted Model Set `self._fit_models`: the fitted model's
raw (unscaled) output on the fixed query `X` — its `predict_proba(X)` matrix
when that capability exists, otherwise the one-hot-encoded (classification)
or direct (regression) output of `predict(X)` — together with the weight
reported by `fit_and_weight` (`0` when fitting raised). -/
structure FitModel (k : ℕ) where
  pred : Fin k → ℚ
  weight : ℕ
deriving DecidableEq

/-- `Ensemble.predict_proba`: collect `raw_output * weight` for every fitted
model with nonzero weight; if the Fitted Model Set has exactly one entry
return `predictions[0]` directly (`none` embeds the `IndexError` when that
single entry has weight 0), otherwise stack (`none` embeds `np.stack([])`
raising) and return the elementwise sum divided by
`sum(map(lambda x: x[1], self._fit_models))`. -/
def predict_proba {k : ℕ} (fm : List (FitModel k)) : Option (Fin k → ℚ) :=
  let predictions := (fm.filter (fun m => m.weight != 0)).map
    (fun m => fun i => m.pred i * (m.weight : ℚ))
  if fm.length = 1 then predictions.head?
  else if predictions.isEmpty then none
  else
    let actual_weight_sum : ℚ := (fm.map (fun m => (m.weight : ℚ))).sum
    some (fun i => (predictions.map (fun p => p i)).sum / actual_weight_sum)

/-! ### Cache loader (`load_predictions`) -/

/-- A directory entry seen by `load_predictions`: its file name, its size in
bytes, and the pickled `(pipeline, predictions, score)` triple stored in it.
The prediction payload is abstract (`α`, it is only carried around), and a
pipeline's `str()` is embedded as `toString` of its handle. -/
structure CacheFile (α : Type) where
  fname : String
  size : ℕ
  pl : ℕ
  payload : α
  score : ℚ
deriving DecidableEq

/-- A `Model` record as produced by `load_predictions`
(`Model(str(pl), pl, predictions, score)`). -/
structure LoadedModel (α : Type) where
  name : String
  pipeline : ℕ
  payload : α
  score : ℚ
deriving DecidableEq

/-- Python `file.endswith('.pkl')`. -/
def endsWithDotPkl (s : String) : Bool :=
  ".pkl".toList.isSuffixOf s.toList

/-- The directory loop of `load_predictions`.  `lastLoaded` holds the current
values of the Python locals `pl, predictions, score`, which are assigned only
under the `st_size > 0` guard; the `models.append(...)` statement sits outside
that guard, so a zero-sized `.pkl` file appends from the stale locals, and
raises `NameError` (`none`) when no earlier file ever assigned them.
`argT` stands for the `argmax_pred` one-hot transform applied to the payload
(an external `numpy` computation on the abstract payload). -/
def load_predictions_go {α : Type} (argmax_pred : Bool) (argT : α → α) :
    List (CacheFile α) → Option (ℕ × α × ℚ) → List (LoadedModel α) →
    Option (List (LoadedModel α))
  | [], _, acc => some acc
  | f :: rest, lastLoaded, acc =>
    if endsWithDotPkl f.fname then
      let lastLoaded2 :=
        if f.size > 0 then
          some (f.pl, (if argmax_pred then argT f.payload else f.payload), f.score)
        else lastLoaded
      match lastLoaded2 with
      | none => none
      | some (pl, preds, score) =>
        load_predictions_go argmax_pred argT rest lastLoaded2
          (acc ++ [⟨toString pl, pl, preds, score⟩])
    else load_predictions_go argmax_pred argT rest lastLoaded acc

/-- `load_predictions`, over the listing of a cache directory. -/
def load_predictions {α : Type} (argmax_pred : Bool) (argT : α → α)
    (dir : List (CacheFile α)) : Option (List (LoadedModel α)) :=
  load_predictions_go argmax_pred argT dir none []

/-! ### Persistence shim (`__getstate__`) -/

/-- The metric tuple as `__getstate__` sees it: `name, fn, *rest`; the
function reference is only tested for being stripped, the remaining fields
are an opaque tail. -/
structure MetricT where
  name : String
  fn : Option Unit
  rest : ℕ
deriving DecidableEq

/-- Python `needle in hay` on strings. -/
def strContains (hay needle : String) : Bool :=
  (List.range (hay.toList.length + 1)).any
    (fun i => needle.toList.isPrefixOf (hay.toList.drop i))

/-- The instance attributes of `Ensemble` (its `__dict__`).  Attributes that
`__getstate__` may null out are `Option`s; the remaining ones are carried at
the natural embedded type. -/
structure EnsembleState (k : ℕ) where
  _metric : MetricT
  _model_library_directory : Option String
  _model_library : Option (List (Model k))
  _shrink_on_pickle : Bool
  _n_jobs : ℕ
  _y_true : List ℚ
  _label_encoder : Option ℕ
  _fit_models : Option (List (FitModel k))
  _maximize : Bool
  _child_ensembles : Option (List (MMap k))
  _child_ensemble_model_fraction : ℚ
  _models : Option (MMap k)

/-- `Ensemble.__getstate__`: strip the metric's function reference when the
metric name contains `'neg'`; when `shrink_on_pickle` is set, null out
`_models`, `_model_library` and `_child_ensembles` (`_y_true` is kept for
output dimensionality); return the resulting `__dict__`. -/
def getstate {k : ℕ} (s : EnsembleState k) : EnsembleState k :=
  let s1 := if strContains s._metric.name "neg"
            then { s with _metric := { s._metric with fn := none } }
            else s
  if s1._shrink_on_pickle then
    { s1 with _models := none, _model_library := none, _child_ensembles := none }
  else s1

/-! ### Fold lemmas for sequences of `_add_model` calls -/

section FoldLemmas

variable {k : ℕ}

/-- The weight a single model set contributes to a key: the sum of the
weights of its entries stored under that key. -/
def keyWeight (ms : MMap k) (q : ℕ) : ℕ :=
  (ms.map (fun e => if e.1.pipeline = q then e.2 else 0)).sum

theorem keyWeight_eq_zero_of_not_mem {ms : MMap k} {q : ℕ} (h : q ∉ keys ms) :
    keyWeight ms q = 0 := by
  unfold keyWeight
  rw [List.sum_eq_zero]
  intro x hx
  rcases List.mem_map.mp hx with ⟨e, he, hex⟩
  have : e.1.pipeline ≠ q := fun hc => h (mem_keys.mpr ⟨e, he, hc⟩)
  simpa [this] using hex.symm

theorem keyWeight_eq_getWeight {ms : MMap k} {q : ℕ} (h : (keys ms).Nodup) :
    keyWeight ms q = getWeight ms q := by
  induction ms with
  | nil => rfl
  | cons e t ih =>
    rw [keys_cons] at h
    have hkt : (keys t).Nodup := h.of_cons
    have hhead : e.1.pipeline ∉ keys t := (List.nodup_cons.mp h).1
    rw [getWeight_cons]
    by_cases he : e.1.pipeline = q
    · have hqt : q ∉ keys t := he ▸ hhead
      have hz := keyWeight_eq_zero_of_not_mem hqt
      unfold keyWeight at hz ⊢
      simp only [List.map_cons, List.sum_cons, if_pos he]
      omega
    · have hih := ih hkt
      unfold keyWeight at hih ⊢
      simp only [List.map_cons, List.sum_cons, if_neg he]
      omega

theorem fold_add_nodup (l : List (Model k × ℕ)) (acc : MMap k)
    (h : (keys acc).Nodup) :
    (keys (l.foldl (fun a e => add_model a e.1 e.2) acc)).Nodup := by
  induction l generalizing acc with
  | nil => exact h
  | cons e t ih => exact ih _ (nodup_keys_add_model _ _ _ h)

theorem fold_add_total (l : List (Model k × ℕ)) (acc : MMap k)
    (h : (keys acc).Nodup) :
    total_model_weights (l.foldl (fun a e => add_model a e.1 e.2) acc)
      = total_model_weights acc + (l.map (fun o => o.2)).sum := by
  induction l generalizing acc with
  | nil => simp
  | cons e t ih =>
    rw [List.foldl_cons, ih _ (nodup_keys_add_model _ _ _ h),
      total_add_model _ _ _ h]
    simp
    omega

theorem fold_add_pos (l : List (Model k × ℕ)) (acc : MMap k)
    (hacc : ∀ x ∈ acc, 1 ≤ x.2) (hl : ∀ o ∈ l, 1 ≤ o.2) :
    ∀ x ∈ l.foldl (fun a e => add_model a e.1 e.2) acc, 1 ≤ x.2 := by
  induction l generalizing acc with
  | nil => exact hacc
  | cons e t ih =>
    rw [List.foldl_cons]
    exact ih _
      (weights_add_model_pos _ _ _ hacc (hl e (List.mem_cons_self e t)))
      (fun o ho => hl o (List.mem_cons_of_mem e ho))

theorem fold_add_getWeight (l : List (Model k × ℕ)) (acc : MMap k) (q : ℕ)
    (h : (keys acc).Nodup) :
    getWeight (l.foldl (fun a e => add_model a e.1 e.2) acc) q
      = getWeight acc q + keyWeight l q := by
  induction l generalizing acc with
  | nil => simp [keyWeight]
  | cons e t ih =>
    rw [List.foldl_cons, ih _ (nodup_keys_add_model _ _ _ h),
      getWeight_add_model _ _ _ _ h]
    simp only [keyWeight, List.map_cons, List.sum_cons]
    by_cases hq : q = e.1.pipeline
    · rw [if_pos hq, if_pos hq.symm]
      omega
    · rw [if_neg hq, if_neg (fun hc => hq hc.symm)]
      omega

theorem add_model_length_of_mem (ms : MMap k) (m : Model k) (w : ℕ)
    (hnd : (keys ms).Nodup) (hmem : m.pipeline ∈ keys ms) :
    (add_model ms m w).length = ms.length := by
  induction ms with
  | nil => exact absurd hmem (List.not_mem_nil _)
  | cons e t ih =>
    rw [keys_cons] at hnd hmem
    have hkt : (keys t).Nodup := hnd.of_cons
    have hhead : e.1.pipeline ∉ keys t := (List.nodup_cons.mp hnd).1
    by_cases hk : e.1.pipeline = m.pipeline
    · have htk : m.pipeline ∉ keys t := hk ▸ hhead
      rw [add_model_cons_eq e t m w hk htk]
      simp
    · have hmt : m.pipeline ∈ keys t := by
        rcases List.mem_cons.mp hmem with h1 | h2
        · exact absurd h1.symm hk
        · exact h2
      rw [add_model_cons_ne e t m w hk]
      simp [ih hkt hmt]

end FoldLemmas

/-! ### Concrete instances used by the closed instantiations -/

/-- A concrete model record (pipeline handle 1). -/
def mA : Model 1 := ⟨"A", 1, fun _ => 2, 9⟩

/-- A concrete model record (pipeline handle 2). -/
def mB : Model 1 := ⟨"B", 2, fun _ => 4, 8⟩

/-- A concrete model record with the failed-fit sentinel score 0. -/
def mC : Model 1 := ⟨"C", 3, fun _ => 6, 0⟩

/-! ### Claim theorems -/

/-- C4: for a non-empty weighted model set with positive total weight `W`
and any candidate, the `add_models` online update
`current_avg + (candidate.predictions - current_avg) / (W + 1)` equals the
full `_averaged_validation_predictions` recomputation over the set after
`_add_model(candidate)` with weight increment exactly 1 (exact arithmetic;
records sharing the candidate's pipeline identity carry its predictions). -/
theorem C4_online_update_eq_recompute {k : ℕ} (ms : MMap k) (c : Model k)
    (hne : ms ≠ []) (hnd : (keys ms).Nodup)
    (hpos : 0 < total_model_weights ms)
    (hid : ∀ e ∈ ms, e.1.pipeline = c.pipeline → e.1.predictions = c.predictions) :
    ∃ avg, averaged_validation_predictions ms = some avg ∧
      averaged_validation_predictions (add_model ms c 1) =
        some (candidate_pred avg (total_model_weights ms) c) := by
  have hEmp : ms.isEmpty = false := by
    cases ms with
    | nil => exact absurd rfl hne
    | cons e t => rfl
  have hEmp2 : (add_model ms c 1).isEmpty = false := by
    have h := add_model_ne_nil ms c 1
    cases hadd : add_model ms c 1 with
    | nil => exact absurd hadd h
    | cons e t => rfl
  refine ⟨fun i => wsum ms i / (total_model_weights ms : ℚ), ?_, ?_⟩
  · unfold averaged_validation_predictions
    rw [hEmp]
    rfl
  · unfold averaged_validation_predictions
    rw [hEmp2]
    simp only [Bool.false_eq_true, if_false, Option.some.injEq]
    funext i
    rw [wsum_add_model ms c 1 i hnd hid, total_add_model ms c 1 hnd]
    unfold candidate_pred
    have hW : ((total_model_weights ms : ℚ)) ≠ 0 := by
      exact_mod_cast Nat.pos_iff_ne_zero.mp hpos
    have hW1 : ((total_model_weights ms : ℚ) + 1) ≠ 0 := by positivity
    push_cast
    field_simp
    ring

/-- Closed instantiation of the C4 theorem at a one-model set and a fresh
candidate. -/
theorem C4_online_update_eq_recompute_witness :
    ([(mA, 1)] : MMap 1) ≠ [] ∧ (keys [(mA, 1)]).Nodup ∧
      0 < total_model_weights [(mA, 1)] ∧
      (∃ avg, averaged_validation_predictions [(mA, 1)] = some avg ∧
        averaged_validation_predictions (add_model [(mA, 1)] mB 1) =
          some (candidate_pred avg (total_model_weights [(mA, 1)]) mB)) :=
  ⟨by simp, by decide, by decide,
    C4_online_update_eq_recompute [(mA, 1)] mB (by simp) (by decide) (by decide)
      (by decide)⟩

/-- C6: after any sequence of `_add_model` calls (seeding with `n` performs
`n` unit-weight calls after a reset, each stepwise add one unit-weight call,
a bagging merge one call per child entry at that entry's weight), the model
set has at most one entry per pipeline, every entry has weight ≥ 1, the
total weight is the sum of the added weights — hence the number of addition
operations when all increments are 1 — and adding an already-present model
increments that entry's weight without creating a new entry. -/
theorem C6_weighted_model_set_invariants {k : ℕ} (ops : List (Model k × ℕ))
    (hw : ∀ o ∈ ops, 1 ≤ o.2) :
    (keys (apply_adds ops)).Nodup ∧
    (∀ e ∈ apply_adds ops, 1 ≤ e.2) ∧
    total_model_weights (apply_adds ops) = (ops.map (fun o => o.2)).sum ∧
    ((∀ o ∈ ops, o.2 = 1) → total_model_weights (apply_adds ops) = ops.length) ∧
    (∀ (m : Model k) (w : ℕ),
      getWeight (add_model (apply_adds ops) m w) m.pipeline
        = getWeight (apply_adds ops) m.pipeline + w ∧
      (m.pipeline ∈ keys (apply_adds ops) →
        (add_model (apply_adds ops) m w).length = (apply_adds ops).length)) := by
  have hnil : (keys ([] : MMap k)).Nodup := by simp [keys]
  have hnd : (keys (apply_adds ops)).Nodup := fold_add_nodup ops [] hnil
  refine ⟨hnd, ?_, ?_, ?_, ?_⟩
  · exact fold_add_pos ops [] (by intro x hx; exact absurd hx (List.not_mem_nil x)) hw
  · have := fold_add_total ops [] hnil
    simpa [total_model_weights] using this
  · intro h1
    have := fold_add_total ops [] hnil
    have hmap : (ops.map (fun o => o.2)).sum = ops.length := by
      have : ops.map (fun o => o.2) = ops.map (fun _ => 1) := by
        apply List.map_congr_left
        intro o ho
        exact h1 o ho
      rw [this]
      simp
    simpa [total_model_weights, hmap] using this
  · intro m w
    constructor
    · rw [getWeight_add_model _ _ _ _ hnd]
      simp
    · intro hmem
      exact add_model_length_of_mem _ _ _ hnd hmem

/-- Closed instantiation of the C6 theorem: seed `mA`, add `mB`, re-add `mA`
(three unit additions, one weight-2 entry and one weight-1 entry). -/
theorem C6_weighted_model_set_invariants_witness :
    (∀ o ∈ [(mA, 1), (mB, 1), (mA, 1)], 1 ≤ o.2) ∧
    ((keys (apply_adds [(mA, 1), (mB, 1), (mA, 1)])).Nodup ∧
      (∀ e ∈ apply_adds [(mA, 1), (mB, 1), (mA, 1)], 1 ≤ e.2) ∧
      total_model_weights (apply_adds [(mA, 1), (mB, 1), (mA, 1)])
        = ([(mA, 1), (mB, 1), (mA, 1)].map (fun o => o.2)).sum ∧
      ((∀ o ∈ [(mA, 1), (mB, 1), (mA, 1)], o.2 = 1) →
        total_model_weights (apply_adds [(mA, 1), (mB, 1), (mA, 1)])
          = [(mA, 1), (mB, 1), (mA, 1)].length) ∧
      (∀ (m : Model 1) (w : ℕ),
        getWeight (add_model (apply_adds [(mA, 1), (mB, 1), (mA, 1)]) m w) m.pipeline
          = getWeight (apply_adds [(mA, 1), (mB, 1), (mA, 1)]) m.pipeline + w ∧
        (m.pipeline ∈ keys (apply_adds [(mA, 1), (mB, 1), (mA, 1)]) →
          (add_model (apply_adds [(mA, 1), (mB, 1), (mA, 1)]) m w).length
            = (apply_adds [(mA, 1), (mB, 1), (mA, 1)]).length))) :=
  ⟨by decide, C6_weighted_model_set_invariants [(mA, 1), (mB, 1), (mA, 1)] (by decide)⟩

/-- C8: the bagging merge of `build_` discards the parent's prior weighted
model set, then adds every child entry at its child weight; weights sum by
pipeline identity across children, and the parent's total weight is the sum
of the children's total weights. -/
theorem C8_bagging_merge_sums_child_weights {k : ℕ} (children : List (MMap k))
    (parent : MMap k) (hc : ∀ c ∈ children, (keys c).Nodup) :
    merge_child_ensembles children parent = merge_child_ensembles children [] ∧
    total_model_weights (merge_child_ensembles children parent)
      = (children.map total_model_weights).sum ∧
    (∀ q, getWeight (merge_child_ensembles children parent) q
      = (children.map (fun c => getWeight c q)).sum) := by
  refine ⟨rfl, ?_, ?_⟩
  · unfold merge_child_ensembles
    have main : ∀ (cs : List (MMap k)) (acc : MMap k), (keys acc).Nodup →
        total_model_weights (cs.foldl (fun a c => c.foldl (fun a e => add_model a e.1 e.2) a) acc)
          = total_model_weights acc + (cs.map total_model_weights).sum := by
      intro cs
      induction cs with
      | nil => intro acc hacc; simp
      | cons c t ih =>
        intro acc hacc
        rw [List.foldl_cons, ih _ (fold_add_nodup c acc hacc),
          fold_add_total c acc hacc]
        simp only [List.map_cons, List.sum_cons]
        unfold total_model_weights
        omega
    have := main children [] (by simp [keys])
    simpa [total_model_weights] using this
  · intro q
    unfold merge_child_ensembles
    have main : ∀ (cs : List (MMap k)) (acc : MMap k), (keys acc).Nodup →
        (∀ c ∈ cs, (keys c).Nodup) →
        getWeight (cs.foldl (fun a c => c.foldl (fun a e => add_model a e.1 e.2) a) acc) q
          = getWeight acc q + (cs.map (fun c => getWeight c q)).sum := by
      intro cs
      induction cs with
      | nil => intro acc hacc hcs; simp
      | cons c t ih =>
        intro acc hacc hcs
        rw [List.foldl_cons, ih _ (fold_add_nodup c acc hacc)
            (fun x hx => hcs x (List.mem_cons_of_mem c hx)),
          fold_add_getWeight c acc q hacc,
          keyWeight_eq_getWeight (hcs c (List.mem_cons_self c t))]
        simp only [List.map_cons, List.sum_cons]
        omega
    have := main children [] (by simp [keys]) hc
    simpa [getWeight_nil] using this

/-- Closed instantiation of the C8 theorem: two children both selecting
`mA` (weights 1 and 2) merged over a non-empty parent. -/
theorem C8_bagging_merge_sums_child_weights_witness :
    (∀ c ∈ [[(mA, 1)], [(mA, 2), (mB, 1)]], (keys c).Nodup) ∧
    (merge_child_ensembles [[(mA, 1)], [(mA, 2), (mB, 1)]] [(mB, 5)]
        = merge_child_ensembles [[(mA, 1)], [(mA, 2), (mB, 1)]] [] ∧
      total_model_weights (merge_child_ensembles [[(mA, 1)], [(mA, 2), (mB, 1)]] [(mB, 5)])
        = ([[(mA, 1)], [(mA, 2), (mB, 1)]].map total_model_weights).sum ∧
      (∀ q, getWeight (merge_child_ensembles [[(mA, 1)], [(mA, 2), (mB, 1)]] [(mB, 5)]) q
        = ([[(mA, 1)], [(mA, 2), (mB, 1)]].map (fun c => getWeight c q)).sum)) :=
  ⟨by decide, C8_bagging_merge_sums_child_weights [[(mA, 1)], [(mA, 2), (mB, 1)]]
    [(mB, 5)] (by decide)⟩

/-- Dropping the zero-weight fitted models does not change the weight sum:
`sum(map(lambda x: x[1], self._fit_models))` equals the sum over the models
actually used. -/
theorem sum_weights_filter {k : ℕ} (fm : List (FitModel k)) :
    (fm.map (fun m => (m.weight : ℚ))).sum
      = ((fm.filter (fun m => m.weight != 0)).map (fun m => (m.weight : ℚ))).sum := by
  induction fm with
  | nil => rfl
  | cons m t ih =>
    by_cases h : m.weight = 0
    · simp [List.filter_cons, h, ih]
    · have hb : (m.weight != 0) = true := by simp [h]
      simp [List.filter_cons, hb, ih]

/-- C7: on a Fitted Model Set with at least two entries and at least one
successful fit, `predict_proba` returns the sum of the weight-scaled raw
outputs of the entries with nonzero weight, divided by the sum of the
weights actually fitted — a weight-0 entry (failed fit) contributes to
neither the numerator nor the denominator, so the divisor equals the
nonzero-weight total, not any larger nominal total. -/
theorem C7_predict_proba_divides_by_actual_weights {k : ℕ} (fm : List (FitModel k))
    (h2 : 2 ≤ fm.length) (hx : ∃ m ∈ fm, m.weight ≠ 0) :
    predict_proba fm = some (fun i =>
        ((fm.filter (fun m => m.weight != 0)).map (fun m => m.pred i * (m.weight : ℚ))).sum
          / ((fm.filter (fun m => m.weight != 0)).map (fun m => (m.weight : ℚ))).sum) ∧
    (fm.map (fun m => (m.weight : ℚ))).sum
      = ((fm.filter (fun m => m.weight != 0)).map (fun m => (m.weight : ℚ))).sum := by
  have hlen : fm.length ≠ 1 := by omega
  have hfne : (fm.filter (fun m => m.weight != 0)) ≠ [] := by
    rcases hx with ⟨m, hm, hw⟩
    intro hc
    have hmem : m ∈ fm.filter (fun m => m.weight != 0) :=
      List.mem_filter.mpr ⟨hm, by simp [hw]⟩
    rw [hc] at hmem
    exact absurd hmem (List.not_mem_nil m)
  refine ⟨?_, sum_weights_filter fm⟩
  simp only [predict_proba, if_neg hlen]
  have hpe : (((fm.filter (fun m => m.weight != 0)).map
      (fun m => fun i => m.pred i * (m.weight : ℚ))).isEmpty) = false := by
    simp [List.isEmpty_iff, hfne]
  rw [hpe]
  simp only [Bool.false_eq_true, if_false, Option.some.injEq]
  funext i
  rw [List.map_map, sum_weights_filter fm]
  rfl

/-- Closed instantiation of the C7 theorem: one failed fit (weight 0) next
to two successful fits. -/
theorem C7_predict_proba_divides_by_actual_weights_witness :
    2 ≤ ([⟨fun _ => 1, 0⟩, ⟨fun _ => 3, 1⟩, ⟨fun _ => 5, 2⟩] : List (FitModel 1)).length ∧
    (∃ m ∈ ([⟨fun _ => 1, 0⟩, ⟨fun _ => 3, 1⟩, ⟨fun _ => 5, 2⟩] : List (FitModel 1)),
      m.weight ≠ 0) ∧
    (predict_proba [⟨fun _ => 1, 0⟩, ⟨fun _ => 3, 1⟩, ⟨fun _ => 5, 2⟩] = some (fun i =>
        ((([⟨fun _ => 1, 0⟩, ⟨fun _ => 3, 1⟩, ⟨fun _ => 5, 2⟩] : List (FitModel 1)).filter
            (fun m => m.weight != 0)).map (fun m => m.pred i * (m.weight : ℚ))).sum
          / ((([⟨fun _ => 1, 0⟩, ⟨fun _ => 3, 1⟩, ⟨fun _ => 5, 2⟩] : List (FitModel 1)).filter
            (fun m => m.weight != 0)).map (fun m => (m.weight : ℚ))).sum) ∧
      (([⟨fun _ => 1, 0⟩, ⟨fun _ => 3, 1⟩, ⟨fun _ => 5, 2⟩] : List (FitModel 1)).map
          (fun m => (m.weight : ℚ))).sum
        = ((([⟨fun _ => 1, 0⟩, ⟨fun _ => 3, 1⟩, ⟨fun _ => 5, 2⟩] : List (FitModel 1)).filter
            (fun m => m.weight != 0)).map (fun m => (m.weight : ℚ))).sum) :=
  ⟨by decide, by decide,
    C7_predict_proba_divides_by_actual_weights
      [⟨fun _ => 1, 0⟩, ⟨fun _ => 3, 1⟩, ⟨fun _ => 5, 2⟩] (by decide) (by decide)⟩

/-- C1 (code bug): with exactly one fitted model at weight 2 and raw output
constantly 1, `predict_proba` returns `predictions[0]`, the weight-scaled
output constantly 2, without dividing by the actual weight sum — not the
model's raw output that the claim (and the general branch's
scaled-sum-over-weight-sum formula) requires. -/
theorem C1_single_model_output_not_divided :
    predict_proba (k := 1) [⟨fun _ => 1, 2⟩] = some (fun _ => 2) ∧
    predict_proba (k := 1) [⟨fun _ => 1, 2⟩] ≠ some (fun _ => 1) := by
  have h : predict_proba (k := 1) [⟨fun _ => 1, 2⟩] = some (fun _ => 2) := by
    simp [predict_proba]
  refine ⟨h, ?_⟩
  rw [h]
  intro hc
  have h2 := congrFun (Option.some.inj hc) 0
  norm_num at h2

/-- C2 (code bug): `models.append` sits outside the `st_size > 0` guard, so a
directory whose only `.pkl` file is zero-sized raises `NameError` (`none`)
instead of returning no record, and a zero-sized `.pkl` file after a valid
one appends a stale duplicate of the previous record instead of being
skipped. -/
theorem C2_zero_byte_files_not_skipped :
    load_predictions (α := Unit) false id [⟨"a.pkl", 0, 7, (), 1⟩] = none ∧
    load_predictions (α := Unit) false id
        [⟨"a.pkl", 5, 7, (), 1⟩, ⟨"b.pkl", 0, 8, (), 2⟩]
      = some [⟨"7", 7, (), 1⟩, ⟨"7", 7, (), 1⟩] := by
  decide

/-- A concrete ensemble state with a negated-loss metric, for the
`__getstate__` instantiations. -/
def c9state : EnsembleState 1 where
  _metric := ⟨"neg_log_loss", some (), 0⟩
  _model_library_directory := none
  _model_library := some [mA]
  _shrink_on_pickle := true
  _n_jobs := 1
  _y_true := [0, 1]
  _label_encoder := none
  _fit_models := some []
  _maximize := true
  _child_ensembles := some []
  _child_ensemble_model_fraction := 3 / 10
  _models := some [(mA, 1)]

/-- C9 (counterexample): with shrinking configured and a metric named
`neg_log_loss`, `__getstate__` does not keep the metric field — its function
reference is stripped — contradicting "all other fields keep their values". -/
theorem C9_metric_field_not_kept :
    (getstate c9state)._metric ≠ c9state._metric := by
  decide

/-- C9 (amended): when configured to shrink, `__getstate__` nulls out
`_models`, `_model_library` and `_child_ensembles`, retains `_y_true`, and
keeps every other field except the metric, whose function reference is
stripped exactly when the metric's name contains `'neg'`. -/
theorem C9_getstate_shrinks {k : ℕ} (s : EnsembleState k)
    (h : s._shrink_on_pickle = true) :
    (getstate s)._models = none ∧
    (getstate s)._model_library = none ∧
    (getstate s)._child_ensembles = none ∧
    (getstate s)._y_true = s._y_true ∧
    (getstate s)._metric = (if strContains s._metric.name "neg"
        then { s._metric with fn := none } else s._metric) ∧
    (getstate s)._model_library_directory = s._model_library_directory ∧
    (getstate s)._shrink_on_pickle = s._shrink_on_pickle ∧
    (getstate s)._n_jobs = s._n_jobs ∧
    (getstate s)._label_encoder = s._label_encoder ∧
    (getstate s)._fit_models = s._fit_models ∧
    (getstate s)._maximize = s._maximize ∧
    (getstate s)._child_ensemble_model_fraction = s._child_ensemble_model_fraction := by
  unfold getstate
  by_cases hneg : strContains s._metric.name "neg" = true
  · simp [h, hneg]
  · simp [h, hneg]

/-- Closed instantiation of the amended C9 theorem at `c9state`. -/
theorem C9_getstate_shrinks_witness :
    c9state._shrink_on_pickle = true ∧
    ((getstate c9state)._models = none ∧
      (getstate c9state)._model_library = none ∧
      (getstate c9state)._child_ensembles = none ∧
      (getstate c9state)._y_true = c9state._y_true ∧
      (getstate c9state)._metric = (if strContains c9state._metric.name "neg"
          then { c9state._metric with fn := none } else c9state._metric) ∧
      (getstate c9state)._model_library_directory = c9state._model_library_directory ∧
      (getstate c9state)._shrink_on_pickle = c9state._shrink_on_pickle ∧
      (getstate c9state)._n_jobs = c9state._n_jobs ∧
      (getstate c9state)._label_encoder = c9state._label_encoder ∧
      (getstate c9state)._fit_models = c9state._fit_models ∧
      (getstate c9state)._maximize = c9state._maximize ∧
      (getstate c9state)._child_ensemble_model_fraction
        = c9state._child_ensemble_model_fraction) :=
  ⟨rfl, C9_getstate_shrinks c9state rfl⟩

/-- When the added pipeline is not yet a key, `_add_model` appends a fresh
entry at the end. -/
theorem add_model_of_not_mem {k : ℕ} (ms : MMap k) (m : Model k) (w : ℕ)
    (h : m.pipeline ∉ keys ms) : add_model ms m w = ms ++ [(m, w)] := by
  unfold add_model
  have hf : ms.find? (fun e => e.1.pipeline == m.pipeline) = none := by
    rw [List.find?_eq_none]
    intro e he
    simp only [beq_iff_eq]
    intro hc
    exact h (mem_keys.mpr ⟨e, he, hc⟩)
  rw [hf]

/-- Folding unit-weight `_add_model` calls over models whose pipelines are
fresh and mutually distinct appends one weight-1 entry per model. -/
theorem fold_add_one_append {k : ℕ} (l : List (Model k)) (acc : MMap k)
    (h : (keys acc ++ l.map (fun m => m.pipeline)).Nodup) :
    l.foldl (fun a m => add_model a m 1) acc = acc ++ l.map (fun m => (m, 1)) := by
  induction l generalizing acc with
  | nil => simp
  | cons m t ih =>
    rw [List.foldl_cons]
    have hnm : m.pipeline ∉ keys acc := by
      intro hc
      have h2 := (List.nodup_append.mp h).2.2
      exact h2 hc (by simp)
    rw [add_model_of_not_mem acc m 1 hnm]
    have hperm : keys (acc ++ [(m, 1)]) ++ t.map (fun x => x.pipeline)
        = keys acc ++ (m :: t).map (fun x => x.pipeline) := by
      rw [keys_append]
      simp [keys]
    rw [ih (acc ++ [(m, 1)]) (by rw [hperm]; exact h)]
    simp

/-- Pairwise-related lists relate every taken element to every dropped one. -/
theorem take_drop_pairwise {α : Type} {R : α → α → Prop} {l : List α}
    (h : l.Pairwise R) (n : ℕ) :
    ∀ a ∈ l.take n, ∀ b ∈ l.drop n, R a b := by
  intro a ha b hb
  have hsplit : (l.take n ++ l.drop n).Pairwise R := by
    rw [List.take_append_drop]
    exact h
  exact (List.pairwise_append.mp hsplit).2.2 a ha b hb

/-- C5: with `n > 0` on a (pipeline-deduplicated) library of size ≥ `n`,
`build_initial_ensemble` succeeds for every prior model set (a non-empty one
is reset, not an error), returning a weighted model set with exactly `n`
entries, each at weight 1, total weight `n`; the selected models are the top
`n` of the library sorted by individually evaluated metric score, descending
when the metric is maximized and ascending otherwise, so every selected
model's score is at least (resp. at most) every unselected library model's. -/
theorem C5_build_initial_ensemble_top_n {k : ℕ} (maximize : Bool)
    (ev : (Fin k → ℚ) → ℚ) (lib : List (Model k)) (n : ℕ)
    (hn : 0 < n) (hlen : n ≤ lib.length)
    (hnd : (lib.map (fun m => m.pipeline)).Nodup) :
    ∃ r : MMap k, (∀ ms : MMap k, build_initial_ensemble maximize ev lib n ms = some r) ∧
      r.length = n ∧ (∀ e ∈ r, e.2 = 1) ∧ total_model_weights r = n ∧
      (∀ a ∈ r, ∀ b ∈ lib, b ∉ r.map (fun e => e.1) →
        (maximize = true → ev b.predictions ≤ ev a.1.predictions) ∧
        (maximize = false → ev a.1.predictions ≤ ev b.predictions)) := by
  have hperm : (if maximize
      then (lib.mergeSort (fun a b => decide (ev a.predictions ≤ ev b.predictions))).reverse
      else lib.mergeSort (fun a b => decide (ev a.predictions ≤ ev b.predictions))).Perm lib := by
    cases maximize
    · simpa using List.mergeSort_perm lib _
    · simpa using (List.reverse_perm _).trans (List.mergeSort_perm lib _)
  refine ⟨((if maximize
      then (lib.mergeSort (fun a b => decide (ev a.predictions ≤ ev b.predictions))).reverse
      else lib.mergeSort (fun a b => decide (ev a.predictions ≤ ev b.predictions))).take n).map
        (fun m => (m, 1)), ?_, ?_, ?_, ?_, ?_⟩
  · intro ms
    simp only [build_initial_ensemble, if_neg (by omega : ¬ n = 0)]
    have hms0 : (if ms.isEmpty then ms else []) = ([] : MMap k) := by
      cases ms with
      | nil => rfl
      | cons e t => rfl
    rw [hms0, fold_add_one_append _ []]
    · simp
    · have hmap : ((if maximize
          then (lib.mergeSort (fun a b => decide (ev a.predictions ≤ ev b.predictions))).reverse
          else lib.mergeSort (fun a b => decide (ev a.predictions ≤ ev b.predictions))).take n).map
            (fun m => m.pipeline) |>.Nodup := by
        have hordnd : ((if maximize
            then (lib.mergeSort (fun a b => decide (ev a.predictions ≤ ev b.predictions))).reverse
            else lib.mergeSort (fun a b => decide (ev a.predictions ≤ ev b.predictions))).map
              (fun m => m.pipeline)).Nodup :=
          ((hperm.map (fun m => m.pipeline)).nodup_iff).mpr hnd
        exact hordnd.sublist ((List.take_sublist n _).map _)
      simpa [keys] using hmap
  · rw [List.length_map, List.length_take, hperm.length_eq]
    omega
  · intro e he
    rcases List.mem_map.mp he with ⟨m, hm, rfl⟩
    rfl
  · unfold total_model_weights
    rw [List.map_map]
    have hconst : ∀ x ∈ ((if maximize
        then (lib.mergeSort (fun a b => decide (ev a.predictions ≤ ev b.predictions))).reverse
        else lib.mergeSort (fun a b => decide (ev a.predictions ≤ ev b.predictions))).take n),
        ((fun e : Model k × ℕ => e.2) ∘ (fun m => (m, 1))) x = 1 := fun x _ => rfl
    rw [List.map_congr_left hconst, List.map_const']
    rw [List.sum_replicate, smul_eq_mul, mul_one]
    rw [List.length_take, hperm.length_eq]
    omega
  · intro a ha b hb hbr
    rcases List.mem_map.mp ha with ⟨am, ham, rfl⟩
    have hbsel : b ∉ ((if maximize
        then (lib.mergeSort (fun a b => decide (ev a.predictions ≤ ev b.predictions))).reverse
        else lib.mergeSort (fun a b => decide (ev a.predictions ≤ ev b.predictions))).take n) := by
      intro hc
      exact hbr (List.mem_map.mpr ⟨(b, 1), List.mem_map.mpr ⟨b, hc, rfl⟩, rfl⟩)
    have hbord : b ∈ (if maximize
        then (lib.mergeSort (fun a b => decide (ev a.predictions ≤ ev b.predictions))).reverse
        else lib.mergeSort (fun a b => decide (ev a.predictions ≤ ev b.predictions))) :=
      hperm.mem_iff.mpr hb
    have hbsplit : b ∈ (if maximize
        then (lib.mergeSort (fun a b => decide (ev a.predictions ≤ ev b.predictions))).reverse
        else lib.mergeSort (fun a b => decide (ev a.predictions ≤ ev b.predictions))).take n ++
          (if maximize
        then (lib.mergeSort (fun a b => decide (ev a.predictions ≤ ev b.predictions))).reverse
        else lib.mergeSort (fun a b => decide (ev a.predictions ≤ ev b.predictions))).drop n := by
      rw [List.take_append_drop]
      exact hbord
    have hbdrop : b ∈ (if maximize
        then (lib.mergeSort (fun a b => decide (ev a.predictions ≤ ev b.predictions))).reverse
        else lib.mergeSort (fun a b => decide (ev a.predictions ≤ ev b.predictions))).drop n := by
      rcases List.mem_append.mp hbsplit with h1 | h2
      · exact absurd h1 hbsel
      · exact h2
    have hsortpw : (lib.mergeSort (fun a b => decide (ev a.predictions ≤ ev b.predictions))).Pairwise
        (fun a b => ev a.predictions ≤ ev b.predictions) := by
      have := @List.sorted_mergeSort (Model k)
        (fun a b : Model k => decide (ev a.predictions ≤ ev b.predictions))
        (fun a b c hab hbc => by
          simp only [decide_eq_true_eq] at *
          exact le_trans hab hbc)
        (fun a b => by
          simp only [Bool.or_eq_true, decide_eq_true_eq]
          exact le_total _ _)
        lib
      refine this.imp ?_
      intro a b hab
      simpa using hab
    constructor
    · intro hmax
      subst hmax
      simp only [if_pos rfl] at ham hbdrop
      have hrevpw : ((lib.mergeSort (fun a b => decide (ev a.predictions ≤ ev b.predictions))).reverse).Pairwise
          (fun a b => ev b.predictions ≤ ev a.predictions) :=
        List.pairwise_reverse.mpr hsortpw
      exact take_drop_pairwise hrevpw n am ham b hbdrop
    · intro hmax
      subst hmax
      simp only [Bool.false_eq_true, if_false] at ham hbdrop
      exact take_drop_pairwise hsortpw n am ham b hbdrop

/-- Closed instantiation of the C5 theorem: `seed(1)` on the two-model
library `[mA, mB]` with the first-coordinate score. -/
theorem C5_build_initial_ensemble_top_n_witness :
    0 < 1 ∧ 1 ≤ ([mA, mB] : List (Model 1)).length ∧
      (([mA, mB] : List (Model 1)).map (fun m => m.pipeline)).Nodup ∧
      (∃ r : MMap 1, (∀ ms : MMap 1,
          build_initial_ensemble true (fun p => p 0) [mA, mB] 1 ms = some r) ∧
        r.length = 1 ∧ (∀ e ∈ r, e.2 = 1) ∧ total_model_weights r = 1 ∧
        (∀ a ∈ r, ∀ b ∈ [mA, mB], b ∉ r.map (fun e => e.1) →
          (true = true →
            (fun p : Fin 1 → ℚ => p 0) b.predictions
              ≤ (fun p : Fin 1 → ℚ => p 0) a.1.predictions) ∧
          (true = false →
            (fun p : Fin 1 → ℚ => p 0) a.1.predictions
              ≤ (fun p : Fin 1 → ℚ => p 0) b.predictions))) :=
  ⟨by decide, by decide, by decide,
    C5_build_initial_ensemble_top_n true (fun p => p 0) [mA, mB] 1 (by decide)
      (by decide) (by decide)⟩

/-! ### Argmax lemmas for the greedy step -/

section ArgmaxLemmas

variable {k : ℕ}

theorem best_step_skip (mx : Bool) (ev : (Fin k → ℚ) → ℚ) (avg : Fin k → ℚ)
    (w : ℕ) (acc : Option (Model k × ℚ)) (m : Model k)
    (h : m.validation_score = 0) : best_step mx ev avg w acc m = acc := by
  simp [best_step, h]

theorem best_step_none (ev : (Fin k → ℚ) → ℚ) (avg : Fin k → ℚ) (w : ℕ)
    (m : Model k) (h : m.validation_score ≠ 0) :
    best_step true ev avg w none m = some (m, ev (candidate_pred avg w m)) := by
  simp [best_step, h]

theorem best_step_some (ev : (Fin k → ℚ) → ℚ) (avg : Fin k → ℚ) (w : ℕ)
    (bm : Model k) (bs : ℚ) (m : Model k) (h : m.validation_score ≠ 0) :
    best_step true ev avg w (some (bm, bs)) m =
      if bs < ev (candidate_pred avg w m)
      then some (m, ev (candidate_pred avg w m))
      else some (bm, bs) := by
  by_cases hlt : bs < ev (candidate_pred avg w m)
  · simp [best_step, h, hlt]
  · simp [best_step, h, hlt]

/-- Skipping the zero-score models is filtering: folding the candidate loop
over the library equals folding it over the nonzero-score sublist. -/
theorem best_fold_filter (mx : Bool) (ev : (Fin k → ℚ) → ℚ) (avg : Fin k → ℚ)
    (w : ℕ) (lib : List (Model k)) (acc : Option (Model k × ℚ)) :
    lib.foldl (best_step mx ev avg w) acc
      = (lib.filter (fun m => m.validation_score != 0)).foldl
          (best_step mx ev avg w) acc := by
  induction lib generalizing acc with
  | nil => rfl
  | cons m t ih =>
    by_cases h : m.validation_score = 0
    · have hb : (m.validation_score != 0) = false := by simp [h]
      rw [List.foldl_cons, best_step_skip mx ev avg w acc m h, List.filter_cons]
      rw [hb]
      exact ih acc
    · have hb : (m.validation_score != 0) = true := by simp [h]
      rw [List.foldl_cons, List.filter_cons, hb, if_pos rfl, List.foldl_cons]
      exact ih _

theorem foldl_max_init_le (l : List ℚ) (b : ℚ) : b ≤ l.foldl max b := by
  induction l generalizing b with
  | nil => simp
  | cons x t ih => exact le_trans (le_max_left b x) (ih (max b x))

theorem foldl_max_mem_le (l : List ℚ) (b : ℚ) : ∀ x ∈ l, x ≤ l.foldl max b := by
  induction l generalizing b with
  | nil =>
    intro x hx
    exact absurd hx (List.not_mem_nil x)
  | cons y t ih =>
    intro x hx
    rcases List.mem_cons.mp hx with h1 | h2
    · subst h1
      exact le_trans (le_max_right b x) (foldl_max_init_le t (max b x))
    · exact ih (max b y) x h2

theorem foldl_max_const (l : List ℚ) (b : ℚ) (h : ∀ x ∈ l, x ≤ b) :
    l.foldl max b = b := by
  induction l with
  | nil => rfl
  | cons y t ih =>
    rw [List.foldl_cons, max_eq_left (h y (List.mem_cons_self y t))]
    exact ih (fun x hx => h x (List.mem_cons_of_mem y hx))

theorem foldl_max_cases (l : List ℚ) (b : ℚ) :
    l.foldl max b = b ∨ l.foldl max b ∈ l := by
  induction l generalizing b with
  | nil => exact Or.inl rfl
  | cons y t ih =>
    rw [List.foldl_cons]
    rcases ih (max b y) with h1 | h2
    · by_cases hy : y ≤ b
      · left
        rw [h1, max_eq_left hy]
      · right
        rw [h1, max_eq_right (le_of_lt (not_le.mp hy))]
        exact List.mem_cons_self y t
    · exact Or.inr (List.mem_cons_of_mem y h2)

/-- If no remaining candidate beats the incumbent score, the incumbent is
kept unchanged by the rest of the loop. -/
theorem fold_best_keep (ev : (Fin k → ℚ) → ℚ) (avg : Fin k → ℚ) (w : ℕ)
    (t : List (Model k)) (bm : Model k) (bs : ℚ)
    (hall : ∀ x ∈ t, x.validation_score ≠ 0)
    (hle : ∀ x ∈ t, ev (candidate_pred avg w x) ≤ bs) :
    t.foldl (best_step true ev avg w) (some (bm, bs)) = some (bm, bs) := by
  induction t with
  | nil => rfl
  | cons m t ih =>
    rw [List.foldl_cons, best_step_some ev avg w bm bs m (hall m (List.mem_cons_self m t)),
      if_neg (not_lt.mpr (hle m (List.mem_cons_self m t)))]
    exact ih (fun x hx => hall x (List.mem_cons_of_mem m hx))
      (fun x hx => hle x (List.mem_cons_of_mem m hx))

/-- If some remaining candidate strictly beats the incumbent score, the loop
ends at the running maximum, won by the first candidate attaining it. -/
theorem fold_best_improve (ev : (Fin k → ℚ) → ℚ) (avg : Fin k → ℚ) (w : ℕ)
    (t : List (Model k)) (bm : Model k) (bs : ℚ)
    (hall : ∀ x ∈ t, x.validation_score ≠ 0)
    (hlt : bs < (t.map (fun x => ev (candidate_pred avg w x))).foldl max bs) :
    ∃ m, t.foldl (best_step true ev avg w) (some (bm, bs))
        = some (m, (t.map (fun x => ev (candidate_pred avg w x))).foldl max bs) ∧
      t.find? (fun x => decide (ev (candidate_pred avg w x)
        = (t.map (fun x => ev (candidate_pred avg w x))).foldl max bs)) = some m := by
  induction t generalizing bm bs with
  | nil => exact absurd hlt (lt_irrefl bs)
  | cons m t ih =>
    have hm : m.validation_score ≠ 0 := hall m (List.mem_cons_self m t)
    have halltail : ∀ x ∈ t, x.validation_score ≠ 0 :=
      fun x hx => hall x (List.mem_cons_of_mem m hx)
    rw [List.foldl_cons, best_step_some ev avg w bm bs m hm]
    by_cases hc : bs < ev (candidate_pred avg w m)
    · rw [if_pos hc]
      have hmaxc : max bs (ev (candidate_pred avg w m)) = ev (candidate_pred avg w m) :=
        max_eq_right (le_of_lt hc)
      by_cases hall2 : ∀ x ∈ t, ev (candidate_pred avg w x) ≤ ev (candidate_pred avg w m)
      · have hS : ((m :: t).map (fun x => ev (candidate_pred avg w x))).foldl max bs
            = ev (candidate_pred avg w m) := by
          rw [List.map_cons, List.foldl_cons, hmaxc]
          exact foldl_max_const _ _ (fun x hx => by
            rcases List.mem_map.mp hx with ⟨y, hy, rfl⟩
            exact hall2 y hy)
        refine ⟨m, ?_, ?_⟩
        · rw [hS]
          exact fold_best_keep ev avg w t m _ halltail hall2
        · rw [List.find?_cons, hS]
          simp
      · push_neg at hall2
        obtain ⟨x, hx, hcx⟩ := hall2
        have hlt2 : ev (candidate_pred avg w m)
            < (t.map (fun x => ev (candidate_pred avg w x))).foldl max
                (ev (candidate_pred avg w m)) :=
          lt_of_lt_of_le hcx
            (foldl_max_mem_le _ _ _ (List.mem_map_of_mem _ hx))
        obtain ⟨m2, hfold, hfind⟩ := ih m (ev (candidate_pred avg w m)) halltail hlt2
        have hS : ((m :: t).map (fun x => ev (candidate_pred avg w x))).foldl max bs
            = (t.map (fun x => ev (candidate_pred avg w x))).foldl max
                (ev (candidate_pred avg w m)) := by
          rw [List.map_cons, List.foldl_cons, hmaxc]
        refine ⟨m2, ?_, ?_⟩
        · rw [hS]
          exact hfold
        · rw [List.find?_cons, hS]
          have : (decide (ev (candidate_pred avg w m)
              = (t.map (fun x => ev (candidate_pred avg w x))).foldl max
                  (ev (candidate_pred avg w m)))) = false := by
            simp only [decide_eq_false_iff_not]
            exact ne_of_lt hlt2
          rw [this]
          exact hfind
    · rw [if_neg hc]
      have hle : ev (candidate_pred avg w m) ≤ bs := not_lt.mp hc
      have hmaxc : max bs (ev (candidate_pred avg w m)) = bs := max_eq_left hle
      have hS : ((m :: t).map (fun x => ev (candidate_pred avg w x))).foldl max bs
          = (t.map (fun x => ev (candidate_pred avg w x))).foldl max bs := by
        rw [List.map_cons, List.foldl_cons, hmaxc]
      rw [hS] at hlt
      obtain ⟨m2, hfold, hfind⟩ := ih bm bs halltail hlt
      refine ⟨m2, ?_, ?_⟩
      · rw [hS]
        exact hfold
      · rw [List.find?_cons, hS]
        have : (decide (ev (candidate_pred avg w m)
            = (t.map (fun x => ev (candidate_pred avg w x))).foldl max bs)) = false := by
          simp only [decide_eq_false_iff_not]
          exact ne_of_lt (lt_of_le_of_lt hle hlt)
        rw [this]
        exact hfind

/-- The retained best addition over the whole library: with at least one
nonzero-score model, the loop returns the maximum candidate score together
with the first nonzero-score model in library order attaining it. -/
theorem best_addition_spec (ev : (Fin k → ℚ) → ℚ) (avg : Fin k → ℚ) (w : ℕ)
    (lib : List (Model k))
    (hne : lib.filter (fun m => m.validation_score != 0) ≠ []) :
    ∃ m s, best_addition true ev avg w lib = some (m, s) ∧
      ((lib.filter (fun m => m.validation_score != 0)).map
        (fun x => ev (candidate_pred avg w x))).maximum = (s : WithBot ℚ) ∧
      (lib.filter (fun m => m.validation_score != 0)).find?
        (fun x => decide (ev (candidate_pred avg w x) = s)) = some m := by
  unfold best_addition
  rw [best_fold_filter]
  obtain ⟨h, t, hht⟩ := List.exists_cons_of_ne_nil hne
  rw [hht]
  have hall : ∀ x ∈ h :: t, x.validation_score ≠ 0 := by
    intro x hx
    have hmem : x ∈ lib.filter (fun m => m.validation_score != 0) := hht ▸ hx
    have := (List.mem_filter.mp hmem).2
    simpa using this
  have halltail : ∀ x ∈ t, x.validation_score ≠ 0 :=
    fun x hx => hall x (List.mem_cons_of_mem h hx)
  rw [List.foldl_cons, best_step_none ev avg w h (hall h (List.mem_cons_self h t))]
  by_cases hall2 : ∀ x ∈ t, ev (candidate_pred avg w x) ≤ ev (candidate_pred avg w h)
  · refine ⟨h, ev (candidate_pred avg w h),
      fold_best_keep ev avg w t h _ halltail hall2, ?_, ?_⟩
    · rw [List.maximum_eq_coe_iff]
      constructor
      · exact List.mem_map_of_mem _ (List.mem_cons_self h t)
      · intro a ha
        rcases List.mem_map.mp ha with ⟨y, hy, rfl⟩
        rcases List.mem_cons.mp hy with h1 | h2
        · rw [h1]
        · exact hall2 y h2
    · rw [List.find?_cons]
      simp
  · push_neg at hall2
    obtain ⟨x, hx, hcx⟩ := hall2
    have hlt : ev (candidate_pred avg w h)
        < (t.map (fun x => ev (candidate_pred avg w x))).foldl max
            (ev (candidate_pred avg w h)) :=
      lt_of_lt_of_le hcx (foldl_max_mem_le _ _ _ (List.mem_map_of_mem _ hx))
    obtain ⟨m2, hfold, hfind⟩ := fold_best_improve ev avg w t h _ halltail hlt
    refine ⟨m2, (t.map (fun x => ev (candidate_pred avg w x))).foldl max
        (ev (candidate_pred avg w h)), hfold, ?_, ?_⟩
    · rw [List.maximum_eq_coe_iff]
      constructor
      · rcases foldl_max_cases (t.map (fun x => ev (candidate_pred avg w x)))
            (ev (candidate_pred avg w h)) with h1 | h2
        · exact absurd h1.symm (ne_of_lt hlt)
        · exact List.mem_cons_of_mem _ h2
      · intro a ha
        rw [List.map_cons] at ha
        rcases List.mem_cons.mp ha with h1 | h2
        · rw [h1]
          exact foldl_max_init_le _ _
        · exact foldl_max_mem_le _ _ _ h2
    · rw [List.find?_cons]
      have : (decide (ev (candidate_pred avg w h)
          = (t.map (fun x => ev (candidate_pred avg w x))).foldl max
              (ev (candidate_pred avg w h)))) = false := by
        simp only [decide_eq_false_iff_not]
        exact ne_of_lt hlt
      rw [this]
      exact hfind

end ArgmaxLemmas

/-- A concrete model sharing `mA`'s predictions under a different pipeline
(produces a candidate-score tie). -/
def mD : Model 1 := ⟨"D", 4, fun _ => 2, 5⟩

/-- C3: one greedy step of `add_models` considers exactly the library models
with nonzero validation score, scores each candidate aggregate (the online
update) with the metric, and adds the best-scoring candidate at weight 1,
replacing the incumbent only on strict improvement: the retained score is
the maximum candidate score and the retained model is the first model in
library iteration order attaining it, so exact ties favor earlier models. -/
theorem C3_step_add_first_best {k : ℕ} (ev : (Fin k → ℚ) → ℚ) (lib : List (Model k))
    (ms : MMap k) (hms : ms ≠ [])
    (hne : lib.filter (fun m => m.validation_score != 0) ≠ []) :
    ∃ m s avg, averaged_validation_predictions ms = some avg ∧
      best_addition true ev avg (total_model_weights ms) lib = some (m, s) ∧
      step_add true ev lib ms = some (add_model ms m 1) ∧
      ((lib.filter (fun m => m.validation_score != 0)).map
        (fun x => ev (candidate_pred avg (total_model_weights ms) x))).maximum
        = (s : WithBot ℚ) ∧
      (lib.filter (fun m => m.validation_score != 0)).find?
        (fun x => decide (ev (candidate_pred avg (total_model_weights ms) x) = s))
        = some m := by
  have hEmp : ms.isEmpty = false := by
    cases ms with
    | nil => exact absurd rfl hms
    | cons e t => rfl
  have havg : averaged_validation_predictions ms
      = some (fun i => wsum ms i / (total_model_weights ms : ℚ)) := by
    unfold averaged_validation_predictions
    rw [hEmp]
    rfl
  obtain ⟨m, s, hba, hmax, hfind⟩ := best_addition_spec ev
    (fun i => wsum ms i / (total_model_weights ms : ℚ)) (total_model_weights ms) lib hne
  refine ⟨m, s, fun i => wsum ms i / (total_model_weights ms : ℚ), havg, hba, ?_,
    hmax, hfind⟩
  unfold step_add
  simp only [havg, hba]

/-- Closed instantiation of the C3 theorem exhibiting the skip and the
tie-break: `mC` (zero score, best would-be candidate) is skipped; `mA` and
`mD` tie on candidate score and the earlier `mA` wins. -/
theorem C3_step_add_first_best_witness :
    ([(mB, 1)] : MMap 1) ≠ [] ∧
    ([mC, mA, mD] : List (Model 1)).filter (fun m => m.validation_score != 0) ≠ [] ∧
    (∃ m s avg, averaged_validation_predictions [(mB, 1)] = some avg ∧
      best_addition true (fun p => p 0) avg (total_model_weights [(mB, 1)]) [mC, mA, mD]
        = some (m, s) ∧
      step_add true (fun p => p 0) [mC, mA, mD] [(mB, 1)]
        = some (add_model [(mB, 1)] m 1) ∧
      ((([mC, mA, mD] : List (Model 1)).filter (fun m => m.validation_score != 0)).map
        (fun x => (fun p : Fin 1 → ℚ => p 0)
          (candidate_pred avg (total_model_weights [(mB, 1)]) x))).maximum
        = (s : WithBot ℚ) ∧
      (([mC, mA, mD] : List (Model 1)).filter (fun m => m.validation_score != 0)).find?
        (fun x => decide ((fun p : Fin 1 → ℚ => p 0)
          (candidate_pred avg (total_model_weights [(mB, 1)]) x) = s)) = some m) :=
  ⟨by simp, by decide,
    C3_step_add_first_best (fun p => p 0) [mC, mA, mD] [(mB, 1)] (by simp) (by decide)⟩

/-- Every greedy step succeeds while some library model has nonzero score:
the model set stays non-empty and each iteration retains a best addition. -/
theorem add_models_go_some {k : ℕ} (ev : (Fin k → ℚ) → ℚ) (lib : List (Model k))
    (hne : lib.filter (fun m => m.validation_score != 0) ≠ []) :
    ∀ (n : ℕ) (ms : MMap k), ms ≠ [] →
      ∃ r, add_models_go true ev lib n ms = some r := by
  intro n
  induction n with
  | zero =>
    intro ms hms
    exact ⟨ms, rfl⟩
  | succ n2 ih =>
    intro ms hms
    have hEmp : ms.isEmpty = false := by
      cases ms with
      | nil => exact absurd rfl hms
      | cons e t => rfl
    have havg : averaged_validation_predictions ms
        = some (fun i => wsum ms i / (total_model_weights ms : ℚ)) := by
      unfold averaged_validation_predictions
      rw [hEmp]
      rfl
    obtain ⟨m, s, hba, hmax2, hfind2⟩ := best_addition_spec ev
      (fun i => wsum ms i / (total_model_weights ms : ℚ)) (total_model_weights ms) lib hne
    have hstep : step_add true ev lib ms = some (add_model ms m 1) := by
      unfold step_add
      simp only [havg, hba]
    obtain ⟨r, hr⟩ := ih (add_model ms m 1) (add_model_ne_nil ms m 1)
    refine ⟨r, ?_⟩
    unfold add_models_go
    rw [hstep]
    exact hr

/-- C10: on a seeded (non-empty) model set, `add_models(n)` with `n > 0`
raises (unbound local `best_addition`, embedded as `none`) whenever the
library is empty or every library model has validation score zero — it
neither checks the precondition nor no-ops — and whenever some library model
has nonzero validation score this error branch is unreachable and the call
returns a model set. -/
theorem C10_add_models_needs_nonzero_score {k : ℕ} (ev : (Fin k → ℚ) → ℚ)
    (lib : List (Model k)) (n : ℕ) (ms : MMap k)
    (hn : 0 < n) (hms : ms ≠ []) :
    ((∀ m ∈ lib, m.validation_score = 0) → add_models true ev lib n ms = none) ∧
    ((∃ m ∈ lib, m.validation_score ≠ 0) →
      ∃ r, add_models true ev lib n ms = some r) := by
  obtain ⟨n2, rfl⟩ : ∃ n2, n = n2 + 1 := ⟨n - 1, by omega⟩
  constructor
  · intro hz
    unfold add_models
    rw [if_neg (by omega : ¬ n2 + 1 = 0)]
    have hEmp : ms.isEmpty = false := by
      cases ms with
      | nil => exact absurd rfl hms
      | cons e t => rfl
    have havg : averaged_validation_predictions ms
        = some (fun i => wsum ms i / (total_model_weights ms : ℚ)) := by
      unfold averaged_validation_predictions
      rw [hEmp]
      rfl
    have hfilter : lib.filter (fun m => m.validation_score != 0) = [] := by
      rw [List.filter_eq_nil_iff]
      intro m hm
      simp [hz m hm]
    have hba : best_addition true ev (fun i => wsum ms i / (total_model_weights ms : ℚ))
        (total_model_weights ms) lib = none := by
      unfold best_addition
      rw [best_fold_filter, hfilter]
      rfl
    have hstep : step_add true ev lib ms = none := by
      unfold step_add
      simp only [havg, hba]
    unfold add_models_go
    rw [hstep]
  · intro hex
    have hne : lib.filter (fun m => m.validation_score != 0) ≠ [] := by
      obtain ⟨m, hm, hs⟩ := hex
      intro hc
      have hmem : m ∈ lib.filter (fun m => m.validation_score != 0) :=
        List.mem_filter.mpr ⟨hm, by simp [hs]⟩
      rw [hc] at hmem
      exact absurd hmem (List.not_mem_nil m)
    unfold add_models
    rw [if_neg (by omega : ¬ n2 + 1 = 0)]
    exact add_models_go_some ev lib hne (n2 + 1) ms hms

/-- Closed instantiation of the C10 theorem: a one-model library whose only
model carries the zero sentinel score (the error conjunct fires), together
with the success conjunct vacuously. -/
theorem C10_add_models_needs_nonzero_score_witness :
    0 < 1 ∧ ([(mB, 1)] : MMap 1) ≠ [] ∧
    (((∀ m ∈ ([mC] : List (Model 1)), m.validation_score = 0) →
        add_models true (fun p => p 0) [mC] 1 [(mB, 1)] = none) ∧
      ((∃ m ∈ ([mC] : List (Model 1)), m.validation_score ≠ 0) →
        ∃ r, add_models true (fun p => p 0) [mC] 1 [(mB, 1)] = some r)) :=
  ⟨by decide, by simp,
    C10_add_models_needs_nonzero_score (fun p => p 0) [mC] 1 [(mB, 1)]
      (by decide) (by simp)⟩

end Gama
